import Mathlib

/-!
Shallow embedding of `src/math/polysat/univariate/univariate_solver.cpp`
(class `univariate_bitblast_solver`): the polynomial encoder (`mk_poly`,
`mk_poly_term`), the assertion manager (`add`, `add_ule`, …, `push`, `pop`),
the model cache, the query engine (`check`, `model`, `unsat_core`) and the
extremal value search (`find_min`, `find_max`).

The underlying bit-vector decision procedure (`solver/solver.h`) is not part
of the sources; it is modelled from the spec (section 6) as an exact finite
domain procedure over the values `0 … 2^W - 1` of the unknown `x`, driven by
an `Oracle` that chooses whether a `check` call answers or reports unknown,
which satisfying value a model query returns, and which labelled subset an
unsat-core query reports.
-/

namespace PolysatUnivariate

/-- Fragment of the bit-vector term language (the `bv_util` constructors used
by `univariate_bitblast_solver`).  `num n` is `bv->mk_numeral(n, bit_width)`
(the numeral denotes `n` modulo `2^W`); `var` is the unknown `x`. -/
inductive BVExpr where
  | num (n : Nat)
  | var
  | add (a b : BVExpr)
  | mul (a b : BVExpr)
  | shl (a b : BVExpr)
  | lshr (a b : BVExpr)
  | ashr (a b : BVExpr)
  | band (a b : BVExpr)
  | bor (a b : BVExpr)
  | bxor (a b : BVExpr)
  | bnot (a : BVExpr)
  deriving DecidableEq, Repr

/-- The boolean formulas the solver asserts: `bv->mk_ule`,
`bv->mk_bvumul_no_ovfl`, `bv->mk_bvsmul_no_ovfl`, `bv->mk_bvsmul_no_udfl`,
`m.mk_eq`, `bv->mk_bit2bool(x, i)` and `m.mk_not`. -/
inductive BForm where
  | ule (a b : BVExpr)
  | umulNoOvfl (a b : BVExpr)
  | smulNoOvfl (a b : BVExpr)
  | smulNoUdfl (a b : BVExpr)
  | eq (a b : BVExpr)
  | bit (i : Nat)
  | not (f : BForm)
  deriving DecidableEq, Repr

/-- Two's-complement reading of a `W`-bit value (for the signed predicates). -/
def toSInt (W n : Nat) : Int :=
  if n < 2 ^ (W - 1) then (n : Int) else (n : Int) - 2 ^ W

/-- Value of a bit-vector expression of width `W` under the assignment
`x := v` (SMT-LIB bit-vector semantics; everything is modulo `2^W`). -/
def evalBV (W : Nat) (e : BVExpr) (v : Nat) : Nat :=
  match e with
  | .num n => n % 2 ^ W
  | .var => v % 2 ^ W
  | .add a b => (evalBV W a v + evalBV W b v) % 2 ^ W
  | .mul a b => (evalBV W a v * evalBV W b v) % 2 ^ W
  | .shl a b => (evalBV W a v * 2 ^ (evalBV W b v)) % 2 ^ W
  | .lshr a b => evalBV W a v / 2 ^ (evalBV W b v)
  | .ashr a b =>
      if evalBV W a v < 2 ^ (W - 1) then evalBV W a v / 2 ^ (evalBV W b v)
      else 2 ^ W - 1 - ((2 ^ W - 1 - evalBV W a v) / 2 ^ (evalBV W b v))
  | .band a b => evalBV W a v &&& evalBV W b v
  | .bor a b => evalBV W a v ||| evalBV W b v
  | .bxor a b => evalBV W a v ^^^ evalBV W b v
  | .bnot a => 2 ^ W - 1 - evalBV W a v

/-- Truth value of an asserted formula of width `W` under `x := v`. -/
def evalB (W : Nat) (f : BForm) (v : Nat) : Bool :=
  match f with
  | .ule a b => decide (evalBV W a v ≤ evalBV W b v)
  | .umulNoOvfl a b => decide (evalBV W a v * evalBV W b v < 2 ^ W)
  | .smulNoOvfl a b =>
      decide (toSInt W (evalBV W a v) * toSInt W (evalBV W b v) < 2 ^ (W - 1))
  | .smulNoUdfl a b =>
      decide (-(2 ^ (W - 1) : Int) ≤ toSInt W (evalBV W a v) * toSInt W (evalBV W b v))
  | .eq a b => decide (evalBV W a v = evalBV W b v)
  | .bit i => (v % 2 ^ W).testBit i
  | .not g => !(evalB W g v)

/-- `rational::is_power_of_two(c, k)` helper (fuel-based so it reduces in the
kernel): `some k` exactly when `c = 2^k`.  See `is_power_of_two_some_iff`. -/
def is_power_of_two_go : Nat → Nat → Option Nat
  | 0, _ => none
  | fuel + 1, c =>
      if c = 1 then some 0
      else if c % 2 = 0 ∧ c ≠ 0 then (is_power_of_two_go fuel (c / 2)).map (· + 1)
      else none

/-- `rational::is_power_of_two`: `some k` exactly when the coefficient equals
`2^k` (coefficients of `univariate` polynomials are nonnegative integers). -/
def is_power_of_two (c : Nat) : Option Nat := is_power_of_two_go c c

/-- `mk_poly_term`: a power-of-two coefficient becomes a left shift by its
exponent (as a `W`-bit numeral), any other coefficient a genuine multiply. -/
def mk_poly_term (coeff : Nat) (xpow : BVExpr) : BVExpr :=
  match is_power_of_two coeff with
  | some pow => .shl xpow (.num pow)
  | none => .mul (.num coeff) xpow

/-- Loop of `mk_poly`: `rest` are the coefficients `p[i]` for `i ≥ 1`, `e` the
accumulated sum, `xpow` the running power of `x`.  A zero coefficient adds no
term; `xpow` is multiplied by `x` only while another coefficient follows. -/
def mk_poly_aux : List Nat → BVExpr → BVExpr → BVExpr
  | [], e, _ => e
  | c :: rest, e, xpow =>
      let e' := if c ≠ 0 then BVExpr.add e (mk_poly_term c xpow) else e
      let xpow' := if rest ≠ [] then BVExpr.mul xpow BVExpr.var else xpow
      mk_poly_aux rest e' xpow'

/-- `mk_poly`: `[d, c, b, a]` becomes `d + c*x + b*(x*x) + a*(x*x*x)`;
the empty list becomes the numeral `0`. -/
def mk_poly : List Nat → BVExpr
  | [] => .num 0
  | c :: rest => mk_poly_aux rest (.num c) .var

/-- The value the spec ascribes to a coefficient list:
`polyVal [c0, c1, …, cn] v = c0 + c1*v + c2*v^2 + … + cn*v^n`
(written in Horner form). -/
def polyVal : List Nat → Nat → Nat
  | [], _ => 0
  | c :: rest, v => c + v * polyVal rest v

/-- Result type of `check` (`lbool`). -/
inductive Lbool where
  | l_true
  | l_false
  | l_undef
  deriving DecidableEq, Repr

/-- Modelled from the spec: the behaviour of the external bit-vector decision
procedure (`solver/solver.h`, not under the sources).  `answer` decides
whether a `check-sat` call gives a definite answer or `unknown`; `pick`
suggests which satisfying value a `get-model` call returns (validated against
the assertions, falling back to the least satisfying value); `core` selects
the labelled subset a `get-unsat-core` call reports.  Each function sees the
assertions currently in force. -/
structure Oracle where
  answer : List (BForm × Nat) → Bool
  pick : List (BForm × Nat) → Nat
  core : List (BForm × Nat) → List (BForm × Nat)

/-- State of a `univariate_bitblast_solver`: the fixed bit width, the scope
level `m_scope_level`, the model cache (`model_cache`, most recent frame
first, so `back()` is the head), the assertion stack of the underlying
decision procedure (current level first; each assertion keeps its dependency
label), and a counter of decision-procedure calls. -/
structure SolverState where
  W : Nat
  scopeLevel : Nat
  modelCache : List Int
  slevels : List (List (BForm × Nat))
  queries : Nat
  deriving DecidableEq, Repr

/-- Constructor: scope level 0, one invalid cache frame
(`model_cache.push_back(rational(-1))`), no assertions. -/
def initState (W : Nat) : SolverState :=
  { W := W, scopeLevel := 0, modelCache := [-1], slevels := [[]], queries := 0 }

/-- `model_cache.back()`. -/
def cacheBack (st : SolverState) : Int := st.modelCache.headI

/-- Overwrite `model_cache.back()`. -/
def setBack (v : Int) (st : SolverState) : SolverState :=
  { st with modelCache := v :: st.modelCache.tail }

/-- `reset_cache()`: `model_cache.back() = -1`. -/
def reset_cache (st : SolverState) : SolverState := setBack (-1) st

/-- The assertions currently in force (all levels of the stack of the
underlying decision procedure). -/
def in_force (st : SolverState) : List (BForm × Nat) := st.slevels.flatten

/-- `push()`: increment the scope level, duplicate the cache frame
(`push_cache`), open a scope in the decision procedure. -/
def push (st : SolverState) : SolverState :=
  { st with
      scopeLevel := st.scopeLevel + 1
      modelCache := cacheBack st :: st.modelCache
      slevels := [] :: st.slevels }

/-- `pop(n)`: decrement the scope level by `n`, discard ONE cache frame
(`pop_cache()` pops a single frame however large `n` is — this is the code as
written), pop `n` scopes of the decision procedure.  Precluded by `SASSERT`:
`n` must not exceed the scope level. -/
def pop (n : Nat) (st : SolverState) : SolverState :=
  { st with
      scopeLevel := st.scopeLevel - n
      modelCache := st.modelCache.tail
      slevels := st.slevels.drop n }

/-- `scope_level()`. -/
def scope_level (st : SolverState) : Nat := st.scopeLevel

/-- `s->assert_expr(e, a)`: record the labelled formula at the current level
of the decision procedure. -/
def assert_expr (f : BForm) (dep : Nat) (st : SolverState) : SolverState :=
  { st with slevels := ((f, dep) :: st.slevels.headI) :: st.slevels.tail }

/-- `add(e, sign, dep)`: invalidate the cache, negate when `sign` is set,
assert the formula labelled with `dep`. -/
def add (f : BForm) (sign : Bool) (dep : Nat) (st : SolverState) : SolverState :=
  assert_expr (if sign then BForm.not f else f) dep (reset_cache st)

/-- `add_ule`. -/
def add_ule (lhs rhs : List Nat) (sign : Bool) (dep : Nat) (st : SolverState) : SolverState :=
  add (.ule (mk_poly lhs) (mk_poly rhs)) sign dep st

/-- `add_umul_ovfl`: asserts `mk_bvumul_no_ovfl` with the sign inverted. -/
def add_umul_ovfl (lhs rhs : List Nat) (sign : Bool) (dep : Nat) (st : SolverState) : SolverState :=
  add (.umulNoOvfl (mk_poly lhs) (mk_poly rhs)) (!sign) dep st

/-- `add_smul_ovfl`: asserts `mk_bvsmul_no_ovfl` with the sign inverted. -/
def add_smul_ovfl (lhs rhs : List Nat) (sign : Bool) (dep : Nat) (st : SolverState) : SolverState :=
  add (.smulNoOvfl (mk_poly lhs) (mk_poly rhs)) (!sign) dep st

/-- `add_smul_udfl`: asserts `mk_bvsmul_no_udfl` with the sign inverted. -/
def add_smul_udfl (lhs rhs : List Nat) (sign : Bool) (dep : Nat) (st : SolverState) : SolverState :=
  add (.smulNoUdfl (mk_poly lhs) (mk_poly rhs)) (!sign) dep st

/-- `add_lshr`. -/
def add_lshr (in1 in2 out : List Nat) (sign : Bool) (dep : Nat) (st : SolverState) : SolverState :=
  add (.eq (.lshr (mk_poly in1) (mk_poly in2)) (mk_poly out)) sign dep st

/-- `add_ashr`. -/
def add_ashr (in1 in2 out : List Nat) (sign : Bool) (dep : Nat) (st : SolverState) : SolverState :=
  add (.eq (.ashr (mk_poly in1) (mk_poly in2)) (mk_poly out)) sign dep st

/-- `add_shl`. -/
def add_shl (in1 in2 out : List Nat) (sign : Bool) (dep : Nat) (st : SolverState) : SolverState :=
  add (.eq (.shl (mk_poly in1) (mk_poly in2)) (mk_poly out)) sign dep st

/-- `add_and`. -/
def add_and (in1 in2 out : List Nat) (sign : Bool) (dep : Nat) (st : SolverState) : SolverState :=
  add (.eq (.band (mk_poly in1) (mk_poly in2)) (mk_poly out)) sign dep st

/-- `add_or`. -/
def add_or (in1 in2 out : List Nat) (sign : Bool) (dep : Nat) (st : SolverState) : SolverState :=
  add (.eq (.bor (mk_poly in1) (mk_poly in2)) (mk_poly out)) sign dep st

/-- `add_xor`. -/
def add_xor (in1 in2 out : List Nat) (sign : Bool) (dep : Nat) (st : SolverState) : SolverState :=
  add (.eq (.bxor (mk_poly in1) (mk_poly in2)) (mk_poly out)) sign dep st

/-- `add_not`. -/
def add_not (inp out : List Nat) (sign : Bool) (dep : Nat) (st : SolverState) : SolverState :=
  add (.eq (.bnot (mk_poly inp)) (mk_poly out)) sign dep st

/-- `add_ule_const`. -/
def add_ule_const (val : Nat) (sign : Bool) (dep : Nat) (st : SolverState) : SolverState :=
  add (.ule .var (.num val)) sign dep st

/-- `add_uge_const`. -/
def add_uge_const (val : Nat) (sign : Bool) (dep : Nat) (st : SolverState) : SolverState :=
  add (.ule (.num val) .var) sign dep st

/-- `add_bit`. -/
def add_bit (idx : Nat) (sign : Bool) (dep : Nat) (st : SolverState) : SolverState :=
  add (.bit idx) sign dep st

/-- Modelled from the spec: `add_bit0` of the `univariate_solver` interface
(header not under the sources) — permanently force bit `idx` of `x` to 0,
i.e. `add_bit` with the sign set. -/
def add_bit0 (idx : Nat) (dep : Nat) (st : SolverState) : SolverState :=
  add_bit idx true dep st

/-- Modelled from the spec: `add_bit1` — force bit `idx` of `x` to 1,
i.e. `add_bit` with the sign clear. -/
def add_bit1 (idx : Nat) (dep : Nat) (st : SolverState) : SolverState :=
  add_bit idx false dep st

/-- The assertions of the current (innermost) scope level, most recent
first. -/
def headAsserts (st : SolverState) : List (BForm × Nat) := st.slevels.headI

/-- Does the value `w` of the unknown satisfy every assertion in force? -/
def holdsB (st : SolverState) (w : Nat) : Bool :=
  (in_force st).all fun p => evalB st.W p.1 w

/-- Is the current assertion set satisfiable over `0 … 2^W - 1`? -/
def satisfiable (st : SolverState) : Bool :=
  (List.range (2 ^ st.W)).any (holdsB st)

/-- `check()`: one call into the decision procedure.  The oracle may report
`unknown`; otherwise the answer is exact for the assertions in force. -/
def check (O : Oracle) (st : SolverState) : Lbool × SolverState :=
  ( if O.answer (in_force st) = false then .l_undef
    else if satisfiable st then .l_true else .l_false,
    { st with queries := st.queries + 1 } )

/-- Modelled from the spec: `s->get_model` returns a satisfying assignment of
the assertions in force (the oracle's suggestion when it is one, otherwise
the least); `none` when no value satisfies them (caller protocol violation). -/
def dpModel (O : Oracle) (st : SolverState) : Option Nat :=
  let hint := O.pick (in_force st)
  if hint < 2 ^ st.W ∧ holdsB st hint = true then some hint
  else (List.range (2 ^ st.W)).find? (holdsB st)

/-- `model()`: return the cached value when it is valid, otherwise query the
decision procedure, cache and return its model.  `none` models the fatal
`SASSERT(model)` when no model is available. -/
def model (O : Oracle) (st : SolverState) : Option (Nat × SolverState) :=
  if cacheBack st < 0 then
    match dpModel O st with
    | some v => some (v, setBack (v : Int) { st with queries := st.queries + 1 })
    | none => none
  else
    some ((cacheBack st).toNat, st)

/-- `unsat_core()`: map each label of the conflict reported by the decision
procedure back to the dependency id it was created from (`symbol(dep)`), and
`SASSERT` that the result is non-empty (`none` models the fatal assertion). -/
def unsat_core (O : Oracle) (st : SolverState) : Option (List Nat) :=
  let deps := (O.core (in_force st)).map fun p => p.2
  if deps.isEmpty then none else some deps

/-- Loop of `find_min`, processing bit indices `k-1, k-2, …, 0`.  A set bit of
the current best value is tentatively cleared under a nested scope; the bit is
then forced permanently at the polarity the check justified.  On `l_undef`
the routine stops with `false` right after the nested `pop(1)`. -/
def find_min_loop (O : Oracle) : Nat → Nat → SolverState → Option (Bool × Nat × SolverState)
  | 0, val, st => some (true, val, st)
  | k + 1, val, st =>
      if !val.testBit k then
        find_min_loop O k val (add_bit0 k 0 st)
      else
        let st1 := add_bit0 k 0 (push st)
        let st2 := (check O st1).2
        match (check O st1).1 with
        | .l_true =>
            match model O st2 with
            | some (v, st3) => find_min_loop O k v (add_bit0 k 0 (pop 1 st3))
            | none => none
        | .l_false => find_min_loop O k val (add_bit1 k 0 (pop 1 st2))
        | .l_undef => some (false, val, pop 1 st2)

/-- `find_min`: start from `model()`, push one scope, clear bits from the most
significant down, and pop that scope on the successful exit.  (On the
`l_undef` exit of the loop the outer scope is left open, as in the code.) -/
def find_min (O : Oracle) (st : SolverState) : Option (Bool × Nat × SolverState) :=
  match model O st with
  | none => none
  | some (val, st1) =>
      match find_min_loop O st1.W val (push st1) with
      | some (true, v, st2) => some (true, v, pop 1 st2)
      | r => r

/-- Loop of `find_max`, mirror image of `find_min_loop`. -/
def find_max_loop (O : Oracle) : Nat → Nat → SolverState → Option (Bool × Nat × SolverState)
  | 0, val, st => some (true, val, st)
  | k + 1, val, st =>
      if val.testBit k then
        find_max_loop O k val (add_bit1 k 0 st)
      else
        let st1 := add_bit1 k 0 (push st)
        let st2 := (check O st1).2
        match (check O st1).1 with
        | .l_true =>
            match model O st2 with
            | some (v, st3) => find_max_loop O k v (add_bit1 k 0 (pop 1 st3))
            | none => none
        | .l_false => find_max_loop O k val (add_bit0 k 0 (pop 1 st2))
        | .l_undef => some (false, val, pop 1 st2)

/-- `find_max`, mirror image of `find_min`. -/
def find_max (O : Oracle) (st : SolverState) : Option (Bool × Nat × SolverState) :=
  match model O st with
  | none => none
  | some (val, st1) =>
      match find_max_loop O st1.W val (push st1) with
      | some (true, v, st2) => some (true, v, pop 1 st2)
      | r => r

/-! Concrete oracles and runs used below to evaluate the code at specific
inputs. -/

/-- A decision procedure that always answers and always suggests `n` as the
model value. -/
def oraclePick (n : Nat) : Oracle :=
  { answer := fun _ => true, pick := fun _ => n, core := fun _ => [] }

/-- A decision procedure that reports `unknown` as soon as at least one
assertion is in force. -/
def oracleShy : Oracle :=
  { answer := fun L => L.isEmpty, pick := fun _ => 1, core := fun _ => [] }

/-- A decision procedure whose unsat core is the whole assertion set. -/
def oracleCoreAll : Oracle :=
  { answer := fun _ => true, pick := fun _ => 0, core := fun L => L }

/-- Run `model()` for its state effect (cache fill). -/
def fromModel (O : Oracle) (st : SolverState) : SolverState :=
  match model O st with
  | some (_, s) => s
  | none => st

/-- Extract the state from a `find_min`/`find_max` result. -/
def getSt (r : Option (Bool × Nat × SolverState)) (d : SolverState) : SolverState :=
  match r with
  | some (_, _, s) => s
  | none => d

/-- Scenario for C3: width 2; `model()` caches 0 at level 0; after `push`,
`x ≥ 1` is asserted and `model()` caches 1 at level 1. -/
def popRunA : SolverState :=
  fromModel (oraclePick 0)
    ((check (oraclePick 0) (add_uge_const 1 false 5 (push (fromModel (oraclePick 0) (initState 2))))).2)

/-- C3 failing input: `push` to level 2, then `pop 2` back to level 0. -/
def popRun : SolverState := pop 2 (push popRunA)

/-- Scenario for C4: width 2; `check(); model()` caches 3 at level 0; `push`;
assert `x ≤ 1`; `pop 0`. -/
def cacheRun : SolverState :=
  pop 0 (add_ule_const 1 false 7 (push (fromModel (oraclePick 3) ((check (oraclePick 3) (initState 2)).2))))

/-- Entry state for C5: width 1, no assertions, cached model value 1. -/
def scopeEntry : SolverState := fromModel (oraclePick 1) ((check (oraclePick 1) (initState 1)).2)

/-- C5 failing run: the first tentative check reports unknown. -/
def scopeRun : Option (Bool × Nat × SolverState) := find_min oracleShy scopeEntry

/-- C5: state returned by the failing run. -/
def scopeOut : SolverState := getSt scopeRun (initState 1)

/-- Entry state for C6: width 2 with the single assertion `x ≥ 2`. -/
def strengthenEntry : SolverState := add_uge_const 2 false 1 (initState 2)

/-- C6: state after a successful `find_min` on `strengthenEntry`. -/
def strengthenOut : SolverState := getSt (find_min (oraclePick 0) strengthenEntry) (initState 2)

/-- Scenario B of the spec (for C2): width 4, assert `x ≤ 10` with dep 1. -/
def scenB : SolverState := add_ule_const 10 false 1 (initState 4)

/-- C2: state after `find_max` on Scenario B. -/
def scenBMaxOut : SolverState := getSt (find_max (oraclePick 0) scenB) (initState 4)

/-- C2: state after `find_min` on Scenario B. -/
def scenBMinOut : SolverState := getSt (find_min (oraclePick 0) scenB) (initState 4)

/-- State for the C7 witness: width 1 with the contradictory assertions
`bit0(x)` (dep 1) and `¬bit0(x)` (dep 2). -/
def coreEntry : SolverState := add_bit 0 true 2 (add_bit 0 false 1 (initState 1))

/-- State for the C10 witness: width 2 with cached model value 2. -/
def cachedEntry : SolverState := fromModel (oraclePick 2) ((check (oraclePick 2) (initState 2)).2)

/-! ## Basic lemmas about the embedded definitions -/

theorem is_power_of_two_go_some : ∀ {fuel c k : Nat},
    is_power_of_two_go fuel c = some k → c = 2 ^ k := by
  intro fuel
  induction fuel with
  | zero => intro c k h; simp [is_power_of_two_go] at h
  | succ fuel ih =>
      intro c k h
      rw [is_power_of_two_go] at h
      by_cases h1 : c = 1
      · rw [if_pos h1] at h
        cases h
        simpa using h1
      · rw [if_neg h1] at h
        by_cases h2 : c % 2 = 0 ∧ c ≠ 0
        · rw [if_pos h2] at h
          cases hrec : is_power_of_two_go fuel (c / 2) with
          | none => rw [hrec] at h; simp at h
          | some k' =>
              rw [hrec] at h
              simp at h
              have hc2 : c / 2 = 2 ^ k' := ih hrec
              have hceq : c = 2 * (c / 2) := by omega
              rw [← h, hceq, hc2, Nat.pow_succ]
              ring
        · rw [if_neg h2] at h; simp at h

theorem is_power_of_two_go_pow : ∀ {k fuel : Nat},
    2 ^ k ≤ fuel → is_power_of_two_go fuel (2 ^ k) = some k := by
  intro k
  induction k with
  | zero =>
      intro fuel h
      cases fuel with
      | zero => simp at h
      | succ f => simp [is_power_of_two_go]
  | succ k ih =>
      intro fuel h
      cases fuel with
      | zero =>
          have hpos : 0 < 2 ^ (k + 1) := Nat.pos_pow_of_pos _ (by omega)
          omega
      | succ f =>
          rw [is_power_of_two_go]
          have h2 : (2 : Nat) ^ (k + 1) = 2 * 2 ^ k := by rw [Nat.pow_succ]; ring
          have h0 := Nat.one_le_two_pow (n := k)
          have h1 : 2 ^ (k + 1) ≠ 1 := by omega
          rw [if_neg h1, if_pos (by constructor <;> omega)]
          have hdiv : 2 ^ (k + 1) / 2 = 2 ^ k := by omega
          rw [hdiv, ih (by omega)]
          rfl

theorem is_power_of_two_some_iff {c k : Nat} : is_power_of_two c = some k ↔ c = 2 ^ k := by
  constructor
  · exact fun h => is_power_of_two_go_some h
  · intro h
    subst h
    exact is_power_of_two_go_pow (Nat.le_refl _)

theorem two_pow_pos (W : Nat) : 0 < 2 ^ W := Nat.pos_pow_of_pos _ (by omega)

theorem evalBV_lt (W : Nat) (e : BVExpr) (v : Nat) : evalBV W e v < 2 ^ W := by
  have hpos := two_pow_pos W
  induction e with
  | num n => exact Nat.mod_lt _ hpos
  | var => exact Nat.mod_lt _ hpos
  | add a b iha ihb => exact Nat.mod_lt _ hpos
  | mul a b iha ihb => exact Nat.mod_lt _ hpos
  | shl a b iha ihb => exact Nat.mod_lt _ hpos
  | lshr a b iha ihb =>
      calc evalBV W a v / 2 ^ evalBV W b v ≤ evalBV W a v := Nat.div_le_self _ _
      _ < 2 ^ W := iha
  | ashr a b iha ihb =>
      simp only [evalBV]
      split
      · calc evalBV W a v / 2 ^ evalBV W b v ≤ evalBV W a v := Nat.div_le_self _ _
        _ < 2 ^ W := iha
      · have hq : 2 ^ W - 1 - (2 ^ W - 1 - evalBV W a v) / 2 ^ evalBV W b v ≤ 2 ^ W - 1 :=
          Nat.sub_le _ _
        omega
  | band a b iha ihb => exact Nat.and_lt_two_pow _ ihb
  | bor a b iha ihb => exact Nat.or_lt_two_pow iha ihb
  | bxor a b iha ihb => exact Nat.xor_lt_two_pow iha ihb
  | bnot a iha => simp only [evalBV]; omega

theorem flatten_eq_headI_append {α : Type} (l : List (List α)) :
    l.flatten = l.headI ++ l.tail.flatten := by
  cases l <;> rfl

theorem holdsB_congr {st1 st2 : SolverState} (hW : st1.W = st2.W)
    (hs : st1.slevels = st2.slevels) : holdsB st1 = holdsB st2 := by
  funext w
  simp [holdsB, in_force, hW, hs]

theorem holdsB_add (f : BForm) (sign : Bool) (dep : Nat) (st : SolverState) (w : Nat) :
    holdsB (add f sign dep st) w
      = (evalB st.W (if sign then BForm.not f else f) w && holdsB st w) := by
  simp only [holdsB, in_force, add, assert_expr, reset_cache, setBack]
  rw [flatten_eq_headI_append st.slevels]
  simp [List.all_append]

theorem holdsB_push (st : SolverState) (w : Nat) : holdsB (push st) w = holdsB st w := by
  simp [holdsB, in_force, push]

theorem check_snd (O : Oracle) (st : SolverState) :
    (check O st).2 = { st with queries := st.queries + 1 } := rfl

theorem check_true {O : Oracle} {st : SolverState} (h : (check O st).1 = .l_true) :
    ∃ w, w < 2 ^ st.W ∧ holdsB st w = true := by
  simp only [check] at h
  split at h
  · exact absurd h (by simp)
  · split at h
    · rename_i hsat
      have := (List.any_eq_true).mp hsat
      obtain ⟨w, hw, hh⟩ := this
      exact ⟨w, List.mem_range.mp hw, hh⟩
    · exact absurd h (by simp)

theorem check_false {O : Oracle} {st : SolverState} (h : (check O st).1 = .l_false) :
    ∀ w, w < 2 ^ st.W → holdsB st w = false := by
  simp only [check] at h
  split at h
  · exact absurd h (by simp)
  · split at h
    · exact absurd h (by simp)
    · rename_i hsat
      intro w hw
      by_contra hcon
      have hh : holdsB st w = true := by
        cases hhh : holdsB st w
        · exact absurd hhh hcon
        · rfl
      exact hsat ((List.any_eq_true).mpr ⟨w, List.mem_range.mpr hw, hh⟩)

theorem model_frame {O : Oracle} {st : SolverState} {v : Nat} {st' : SolverState}
    (h : model O st = some (v, st')) :
    st'.W = st.W ∧ st'.slevels = st.slevels ∧ st'.scopeLevel = st.scopeLevel := by
  simp only [model] at h
  split at h
  · cases hd : dpModel O st with
    | none => rw [hd] at h; simp at h
    | some v0 =>
        rw [hd] at h
        simp only [Option.some.injEq, Prod.mk.injEq] at h
        rw [← h.2]
        exact ⟨rfl, rfl, rfl⟩
  · simp only [Option.some.injEq, Prod.mk.injEq] at h
    rw [← h.2]
    exact ⟨rfl, rfl, rfl⟩

theorem model_fresh {O : Oracle} {st : SolverState} {v : Nat} {st' : SolverState}
    (hc : cacheBack st < 0) (h : model O st = some (v, st')) :
    v < 2 ^ st.W ∧ holdsB st v = true := by
  simp only [model, if_pos hc] at h
  cases hd : dpModel O st with
  | none => rw [hd] at h; simp at h
  | some v0 =>
      rw [hd] at h
      simp only [Option.some.injEq, Prod.mk.injEq] at h
      have hv : v0 = v := h.1
      subst hv
      simp only [dpModel] at hd
      split at hd
      · rename_i hcond
        cases hd
        exact hcond
      · have h1 := List.find?_some hd
        have h2 := List.mem_of_find?_eq_some hd
        exact ⟨List.mem_range.mp h2, h1⟩

theorem model_cached {O : Oracle} {st : SolverState} {v : Nat} {st' : SolverState}
    (hc : ¬ cacheBack st < 0) (h : model O st = some (v, st')) :
    v = (cacheBack st).toNat ∧ st' = st := by
  simp only [model, if_neg hc, Option.some.injEq, Prod.mk.injEq] at h
  exact ⟨h.1.symm, h.2.symm⟩

theorem cacheBack_add (f : BForm) (sign : Bool) (dep : Nat) (st : SolverState) :
    cacheBack (add f sign dep st) = -1 := rfl

theorem div_pow_decomp (n k : Nat) :
    n / 2 ^ k = 2 * (n / 2 ^ (k + 1)) + (if n.testBit k then 1 else 0) := by
  have h1 : n / 2 ^ (k + 1) = n / 2 ^ k / 2 := by
    rw [Nat.pow_succ, Nat.div_div_eq_div_mul]
  have h2 := Nat.div_add_mod (n / 2 ^ k) 2
  have h3 : n.testBit k = decide (n / 2 ^ k % 2 = 1) := Nat.testBit_to_div_mod
  rcases Nat.mod_two_eq_zero_or_one (n / 2 ^ k) with h4 | h4 <;>
    simp [h3, h4, h1] <;> omega

theorem evalBV_term (W v : Nat) (c : Nat) (xpow : BVExpr)
    (hp : (is_power_of_two c).getD 0 < 2 ^ W) :
    evalBV W (mk_poly_term c xpow) v = c * evalBV W xpow v % 2 ^ W := by
  unfold mk_poly_term
  cases hpw : is_power_of_two c with
  | some k =>
      have hk : k < 2 ^ W := by rw [hpw] at hp; exact hp
      have hc : c = 2 ^ k := is_power_of_two_some_iff.mp hpw
      simp only [evalBV]
      rw [Nat.mod_eq_of_lt hk, hc, Nat.mul_comm]
  | none =>
      simp only [evalBV]
      rw [Nat.mod_mul_mod]

theorem evalBV_mk_poly_aux (W v : Nat) (hv : v < 2 ^ W) :
    ∀ (rest : List Nat) (e xpow : BVExpr),
      (∀ c ∈ rest, (is_power_of_two c).getD 0 < 2 ^ W) →
      evalBV W (mk_poly_aux rest e xpow) v
        = (evalBV W e v + evalBV W xpow v * polyVal rest v) % 2 ^ W := by
  intro rest
  induction rest with
  | nil =>
      intro e xpow _
      simp [mk_poly_aux, polyVal, Nat.mod_eq_of_lt (evalBV_lt W e v)]
  | cons c r ih =>
      intro e xpow hp
      have hpr : ∀ c' ∈ r, (is_power_of_two c').getD 0 < 2 ^ W :=
        fun c' hc' => hp c' (List.mem_cons_of_mem _ hc')
      have hpc : (is_power_of_two c).getD 0 < 2 ^ W := hp c (List.mem_cons_self _ _)
      simp only [mk_poly_aux]
      rw [ih _ _ hpr]
      have hE : evalBV W (if c ≠ 0 then BVExpr.add e (mk_poly_term c xpow) else e) v
          ≡ evalBV W e v + c * evalBV W xpow v [MOD 2 ^ W] := by
        by_cases hc : c = 0
        · subst hc
          simp
          exact Nat.ModEq.refl _
        · rw [if_pos hc]
          calc evalBV W (BVExpr.add e (mk_poly_term c xpow)) v
              = (evalBV W e v + evalBV W (mk_poly_term c xpow) v) % 2 ^ W := rfl
            _ ≡ evalBV W e v + evalBV W (mk_poly_term c xpow) v [MOD 2 ^ W] :=
                Nat.mod_modEq _ _
            _ = evalBV W e v + c * evalBV W xpow v % 2 ^ W := by
                rw [evalBV_term W v c xpow hpc]
            _ ≡ evalBV W e v + c * evalBV W xpow v [MOD 2 ^ W] :=
                Nat.ModEq.add (Nat.ModEq.refl _) (Nat.mod_modEq _ _)
      have hX : evalBV W (if r ≠ [] then BVExpr.mul xpow BVExpr.var else xpow) v * polyVal r v
          ≡ evalBV W xpow v * (v * polyVal r v) [MOD 2 ^ W] := by
        by_cases hr : r = []
        · subst hr
          simp [polyVal]
          exact Nat.ModEq.refl _
        · rw [if_pos hr]
          calc evalBV W (BVExpr.mul xpow BVExpr.var) v * polyVal r v
              = (evalBV W xpow v * (v % 2 ^ W)) % 2 ^ W * polyVal r v := rfl
            _ = (evalBV W xpow v * v) % 2 ^ W * polyVal r v := by rw [Nat.mod_eq_of_lt hv]
            _ ≡ evalBV W xpow v * v * polyVal r v [MOD 2 ^ W] :=
                (Nat.mod_modEq _ _).mul_right _
            _ = evalBV W xpow v * (v * polyVal r v) := by ring
      have hsum := Nat.ModEq.add hE hX
      have hring : evalBV W e v + c * evalBV W xpow v
            + evalBV W xpow v * (v * polyVal r v)
          = evalBV W e v + evalBV W xpow v * polyVal (c :: r) v := by
        simp only [polyVal]
        ring
      rw [hring] at hsum
      exact hsum

theorem div_pow_eq_succ_iff {a b : Nat} (k : Nat) :
    a / 2 ^ k = b / 2 ^ k
      ↔ (a / 2 ^ (k + 1) = b / 2 ^ (k + 1) ∧ a.testBit k = b.testBit k) := by
  constructor
  · intro h
    have h1 : a / 2 ^ (k + 1) = a / 2 ^ k / 2 := by
      rw [Nat.pow_succ, Nat.div_div_eq_div_mul]
    have h2 : b / 2 ^ (k + 1) = b / 2 ^ k / 2 := by
      rw [Nat.pow_succ, Nat.div_div_eq_div_mul]
    refine ⟨by rw [h1, h2, h], ?_⟩
    rw [Nat.testBit_to_div_mod, Nat.testBit_to_div_mod, h]
  · intro ⟨h1, h2⟩
    have da := div_pow_decomp a k
    have db := div_pow_decomp b k
    rw [h1, h2] at da
    cases hb : b.testBit k <;> simp [hb] at da db <;> omega

theorem holdsB_add_bit0 (k dep : Nat) (st : SolverState) (w : Nat) (hw : w < 2 ^ st.W) :
    holdsB (add_bit0 k dep st) w = (!w.testBit k && holdsB st w) := by
  rw [add_bit0, add_bit, holdsB_add]
  simp [evalB, Nat.mod_eq_of_lt hw]

theorem holdsB_add_bit1 (k dep : Nat) (st : SolverState) (w : Nat) (hw : w < 2 ^ st.W) :
    holdsB (add_bit1 k dep st) w = (w.testBit k && holdsB st w) := by
  rw [add_bit1, add_bit, holdsB_add]
  simp [evalB, Nat.mod_eq_of_lt hw]

/-- Step of the extremal search invariant: refining the pinned-prefix
characterization when the decided bit is 0. -/
theorem step_iff_zero {P Q : Nat → Bool} {W k val v : Nat}
    (hvb : v.testBit k = false) (hveq : v / 2 ^ (k + 1) = val / 2 ^ (k + 1))
    (hiff : ∀ w, w < 2 ^ W → (Q w = true ↔ (P w = true ∧ w / 2 ^ (k + 1) = val / 2 ^ (k + 1)))) :
    ∀ w, w < 2 ^ W →
      ((!w.testBit k && Q w) = true ↔ (P w = true ∧ w / 2 ^ k = v / 2 ^ k)) := by
  intro w hw
  rw [Bool.and_eq_true, Bool.not_eq_true', hiff w hw]
  constructor
  · rintro ⟨hwb, hPw, hdiv⟩
    refine ⟨hPw, ?_⟩
    rw [div_pow_eq_succ_iff k]
    exact ⟨by rw [hdiv, ← hveq], by rw [hwb, hvb]⟩
  · rintro ⟨hPw, hdiv⟩
    rw [div_pow_eq_succ_iff k] at hdiv
    obtain ⟨hd1, hd2⟩ := hdiv
    exact ⟨by rw [hd2, hvb], hPw, by rw [hd1, hveq]⟩

/-- Step of the extremal search invariant: refining the pinned-prefix
characterization when the decided bit is 1. -/
theorem step_iff_one {P Q : Nat → Bool} {W k val v : Nat}
    (hvb : v.testBit k = true) (hveq : v / 2 ^ (k + 1) = val / 2 ^ (k + 1))
    (hiff : ∀ w, w < 2 ^ W → (Q w = true ↔ (P w = true ∧ w / 2 ^ (k + 1) = val / 2 ^ (k + 1)))) :
    ∀ w, w < 2 ^ W →
      ((w.testBit k && Q w) = true ↔ (P w = true ∧ w / 2 ^ k = v / 2 ^ k)) := by
  intro w hw
  rw [Bool.and_eq_true, hiff w hw]
  constructor
  · rintro ⟨hwb, hPw, hdiv⟩
    refine ⟨hPw, ?_⟩
    rw [div_pow_eq_succ_iff k]
    exact ⟨by rw [hdiv, ← hveq], by rw [hwb, hvb]⟩
  · rintro ⟨hPw, hdiv⟩
    rw [div_pow_eq_succ_iff k] at hdiv
    obtain ⟨hd1, hd2⟩ := hdiv
    exact ⟨by rw [hd2, hvb], hPw, by rw [hd1, hveq]⟩

/-- Minimality is preserved when the decided bit of the new best value is 0. -/
theorem step_min_zero {P : Nat → Bool} {W k val v : Nat}
    (hvb : v.testBit k = false) (hveq : v / 2 ^ (k + 1) = val / 2 ^ (k + 1))
    (hmin : ∀ w, w < 2 ^ W → P w = true → val / 2 ^ (k + 1) ≤ w / 2 ^ (k + 1)) :
    ∀ w, w < 2 ^ W → P w = true → v / 2 ^ k ≤ w / 2 ^ k := by
  intro w hw hPw
  have h1 := hmin w hw hPw
  rw [← hveq] at h1
  have dv := div_pow_decomp v k
  have dw := div_pow_decomp w k
  rw [hvb] at dv
  cases hwb : w.testBit k <;> rw [hwb] at dw <;> simp at dv dw <;> omega

/-- Minimality is preserved when clearing the decided bit was found
unsatisfiable, so it stays at 1. -/
theorem step_min_one {P Q : Nat → Bool} {W k val : Nat}
    (hvb : val.testBit k = true)
    (hiff : ∀ w, w < 2 ^ W → (Q w = true ↔ (P w = true ∧ w / 2 ^ (k + 1) = val / 2 ^ (k + 1))))
    (hunsat : ∀ w, w < 2 ^ W → (!w.testBit k && Q w) = false)
    (hmin : ∀ w, w < 2 ^ W → P w = true → val / 2 ^ (k + 1) ≤ w / 2 ^ (k + 1)) :
    ∀ w, w < 2 ^ W → P w = true → val / 2 ^ k ≤ w / 2 ^ k := by
  intro w hw hPw
  have h1 := hmin w hw hPw
  have dv := div_pow_decomp val k
  have dw := div_pow_decomp w k
  rw [hvb] at dv
  cases hwb : w.testBit k
  · rcases Nat.lt_or_ge (val / 2 ^ (k + 1)) (w / 2 ^ (k + 1)) with hlt | hge
    · rw [hwb] at dw
      simp at dv dw
      omega
    · have heq2 : w / 2 ^ (k + 1) = val / 2 ^ (k + 1) := by omega
      have hQ : Q w = true := (hiff w hw).mpr ⟨hPw, heq2⟩
      have hc := hunsat w hw
      rw [hwb, hQ] at hc
      simp at hc
  · rw [hwb] at dw
    simp at dv dw
    omega

/-- Maximality is preserved when the decided bit of the new best value is 1. -/
theorem step_max_one {P : Nat → Bool} {W k val v : Nat}
    (hvb : v.testBit k = true) (hveq : v / 2 ^ (k + 1) = val / 2 ^ (k + 1))
    (hmax : ∀ w, w < 2 ^ W → P w = true → w / 2 ^ (k + 1) ≤ val / 2 ^ (k + 1)) :
    ∀ w, w < 2 ^ W → P w = true → w / 2 ^ k ≤ v / 2 ^ k := by
  intro w hw hPw
  have h1 := hmax w hw hPw
  rw [← hveq] at h1
  have dv := div_pow_decomp v k
  have dw := div_pow_decomp w k
  rw [hvb] at dv
  cases hwb : w.testBit k <;> rw [hwb] at dw <;> simp at dv dw <;> omega

/-- Maximality is preserved when setting the decided bit was found
unsatisfiable, so it stays at 0. -/
theorem step_max_zero {P Q : Nat → Bool} {W k val : Nat}
    (hvb : val.testBit k = false)
    (hiff : ∀ w, w < 2 ^ W → (Q w = true ↔ (P w = true ∧ w / 2 ^ (k + 1) = val / 2 ^ (k + 1))))
    (hunsat : ∀ w, w < 2 ^ W → (w.testBit k && Q w) = false)
    (hmax : ∀ w, w < 2 ^ W → P w = true → w / 2 ^ (k + 1) ≤ val / 2 ^ (k + 1)) :
    ∀ w, w < 2 ^ W → P w = true → w / 2 ^ k ≤ val / 2 ^ k := by
  intro w hw hPw
  have h1 := hmax w hw hPw
  have dv := div_pow_decomp val k
  have dw := div_pow_decomp w k
  rw [hvb] at dv
  cases hwb : w.testBit k
  · rw [hwb] at dw
    simp at dv dw
    omega
  · rcases Nat.lt_or_ge (w / 2 ^ (k + 1)) (val / 2 ^ (k + 1)) with hlt | hge
    · rw [hwb] at dw
      simp at dv dw
      omega
    · have heq2 : w / 2 ^ (k + 1) = val / 2 ^ (k + 1) := by omega
      have hQ : Q w = true := (hiff w hw).mpr ⟨hPw, heq2⟩
      have hc := hunsat w hw
      rw [hwb, hQ] at hc
      simp at hc

theorem find_min_loop_frame (O : Oracle) :
    ∀ (k val : Nat) (st : SolverState) (out : Bool × Nat × SolverState),
      find_min_loop O k val st = some out →
      out.2.2.W = st.W ∧ out.2.2.scopeLevel = st.scopeLevel ∧
        out.2.2.slevels.tail = st.slevels.tail := by
  intro k
  induction k with
  | zero =>
      intro val st out h
      simp only [find_min_loop, Option.some.injEq] at h
      rw [← h]
      exact ⟨rfl, rfl, rfl⟩
  | succ k ih =>
      intro val st out h
      simp only [find_min_loop] at h
      by_cases hb : val.testBit k
      · rw [if_neg (by simp [hb])] at h
        split at h
        · -- l_true
          split at h
          · -- model some
            rename_i v st3 heq
            obtain ⟨hW3, hs3, hl3⟩ := model_frame heq
            have hih := ih _ _ _ h
            refine ⟨?_, ?_, ?_⟩
            · rw [hih.1]
              show st3.W = st.W
              rw [hW3]
              rfl
            · rw [hih.2.1]
              show st3.scopeLevel - 1 = st.scopeLevel
              have hl : st3.scopeLevel = st.scopeLevel + 1 := hl3
              omega
            · rw [hih.2.2]
              show (st3.slevels.drop 1).tail = st.slevels.tail
              rw [hs3]
              rfl
          · exact absurd h (by simp)
        · -- l_false
          have hih := ih _ _ _ h
          exact hih
        · -- l_undef
          simp only [Option.some.injEq] at h
          rw [← h]
          exact ⟨rfl, rfl, rfl⟩
      · rw [if_pos (by simp [hb])] at h
        exact ih val (add_bit0 k 0 st) out h

theorem find_max_loop_frame (O : Oracle) :
    ∀ (k val : Nat) (st : SolverState) (out : Bool × Nat × SolverState),
      find_max_loop O k val st = some out →
      out.2.2.W = st.W ∧ out.2.2.scopeLevel = st.scopeLevel ∧
        out.2.2.slevels.tail = st.slevels.tail := by
  intro k
  induction k with
  | zero =>
      intro val st out h
      simp only [find_max_loop, Option.some.injEq] at h
      rw [← h]
      exact ⟨rfl, rfl, rfl⟩
  | succ k ih =>
      intro val st out h
      simp only [find_max_loop] at h
      by_cases hb : val.testBit k
      · rw [if_pos hb] at h
        exact ih val (add_bit1 k 0 st) out h
      · rw [if_neg hb] at h
        split at h
        · split at h
          · rename_i v st3 heq
            obtain ⟨hW3, hs3, hl3⟩ := model_frame heq
            have hih := ih _ _ _ h
            refine ⟨?_, ?_, ?_⟩
            · rw [hih.1]
              show st3.W = st.W
              rw [hW3]
              rfl
            · rw [hih.2.1]
              show st3.scopeLevel - 1 = st.scopeLevel
              have hl : st3.scopeLevel = st.scopeLevel + 1 := hl3
              omega
            · rw [hih.2.2]
              show (st3.slevels.drop 1).tail = st.slevels.tail
              rw [hs3]
              rfl
          · exact absurd h (by simp)
        · exact ih val (add_bit0 k 0 (pop 1 (check O (add_bit1 k 0 (push st))).2)) out h
        · simp only [Option.some.injEq] at h
          rw [← h]
          exact ⟨rfl, rfl, rfl⟩

/-- Invariant of `find_min_loop`: processing bits `k-1 … 0` with the current
best value `val` satisfying the assertions, the assertion set pinning the
bits above `k` to those of `val` relative to the entry predicate `P`, and the
pinned prefix minimal among values satisfying `P`, a successful run returns
the minimum of `P`. -/
theorem find_min_loop_spec (O : Oracle) (P : Nat → Bool) :
    ∀ (k val : Nat) (st : SolverState) (out : Bool × Nat × SolverState),
      val < 2 ^ st.W →
      holdsB st val = true →
      (∀ w, w < 2 ^ st.W → (holdsB st w = true ↔ (P w = true ∧ w / 2 ^ k = val / 2 ^ k))) →
      (∀ w, w < 2 ^ st.W → P w = true → val / 2 ^ k ≤ w / 2 ^ k) →
      find_min_loop O k val st = some out →
      out.1 = true →
      out.2.1 < 2 ^ st.W ∧ P out.2.1 = true ∧
        (∀ w, w < 2 ^ st.W → P w = true → out.2.1 ≤ w) := by
  intro k
  induction k with
  | zero =>
      intro val st out hval hsat hiff hmin hrun htrue
      simp only [find_min_loop, Option.some.injEq] at hrun
      rw [← hrun]
      refine ⟨hval, ((hiff val hval).mp hsat).1, ?_⟩
      intro w hw hPw
      have h1 := hmin w hw hPw
      simpa using h1
  | succ k ih =>
      intro val st out hval hsat hiff hmin hrun htrue
      simp only [find_min_loop] at hrun
      by_cases hb : val.testBit k
      · rw [if_neg (by simp [hb])] at hrun
        split at hrun
        · -- inner check satisfiable: adopt the model of the nested scope
          rename_i heqc
          split at hrun
          · rename_i v st3 heq
            -- facts about the fresh model value v
            have hc2 : cacheBack (check O (add_bit0 k 0 (push st))).2 < 0 := by
              show (-1 : Int) < 0
              norm_num
            obtain ⟨hv3, hsat3⟩ := model_fresh hc2 heq
            have hv : v < 2 ^ st.W := hv3
            have hsat1 : holdsB (add_bit0 k 0 (push st)) v = true := hsat3
            rw [holdsB_add_bit0 k 0 (push st) v hv, holdsB_push] at hsat1
            rw [Bool.and_eq_true, Bool.not_eq_true'] at hsat1
            obtain ⟨hvb, hvsat⟩ := hsat1
            obtain ⟨hPv, hveq⟩ := (hiff v hv).mp hvsat
            -- the recursion state
            obtain ⟨hW3, hs3, hl3⟩ := model_frame heq
            have hsl : (pop 1 st3).slevels = st.slevels := by
              show st3.slevels.drop 1 = st.slevels
              rw [hs3]
              rfl
            have hWp : (pop 1 st3).W = st.W := by
              show st3.W = st.W
              rw [hW3]
              rfl
            have hcong : holdsB (pop 1 st3) = holdsB st := holdsB_congr hWp hsl
            have hWn : (add_bit0 k 0 (pop 1 st3)).W = st.W := hWp
            have hQn : ∀ w, w < 2 ^ st.W →
                holdsB (add_bit0 k 0 (pop 1 st3)) w = (!w.testBit k && holdsB st w) := by
              intro w hw
              rw [holdsB_add_bit0 k 0 (pop 1 st3) w (by rw [hWp]; exact hw), hcong]
            -- invariants for the next iteration
            have hiff2 := step_iff_zero hvb hveq hiff
            have hmin2 := step_min_zero (P := P) hvb hveq hmin
            have hres := ih v (add_bit0 k 0 (pop 1 st3)) out
              (by rw [hWn]; exact hv)
              (by rw [hQn v hv, hvb, hvsat]; rfl)
              (by
                simp only [hWn]
                intro w hw
                rw [hQn w hw]
                exact hiff2 w hw)
              (by
                simp only [hWn]
                intro w hw
                exact hmin2 w hw)
              hrun htrue
            simp only [hWn] at hres
            exact hres
          · exact absurd hrun (by simp)
        · -- inner check unsatisfiable: the bit stays 1
          rename_i heqc
          have hunsat0 := check_false heqc
          have hunsat : ∀ w, w < 2 ^ st.W → (!w.testBit k && holdsB st w) = false := by
            intro w hw
            have hc := hunsat0 w hw
            rwa [holdsB_add_bit0 k 0 (push st) w hw, holdsB_push] at hc
          have hiff2 := step_iff_one (v := val) hb rfl hiff
          have hmin2 := step_min_one (P := P) hb hiff hunsat hmin
          have hQn : ∀ w, w < 2 ^ st.W →
              holdsB (add_bit1 k 0 (pop 1 (check O (add_bit0 k 0 (push st))).2)) w
                = (w.testBit k && holdsB st w) := by
            intro w hw
            exact holdsB_add_bit1 k 0 _ w hw
          have hres := ih val (add_bit1 k 0 (pop 1 (check O (add_bit0 k 0 (push st))).2)) out
            hval
            (by rw [hQn val hval, hb, hsat]; rfl)
            (by
              intro w hw
              rw [hQn w hw]
              exact hiff2 w hw)
            (by
              intro w hw
              exact hmin2 w hw)
            hrun htrue
          exact hres
        · -- inner check unknown: the loop fails, contradicting success
          rename_i heqc
          have hout : (false, val, pop 1 (check O (add_bit0 k 0 (push st))).2) = out :=
            Option.some.inj hrun
          rw [← hout] at htrue
          exact absurd htrue (by simp)
      · -- the bit of the best value is already 0: force it and continue
        rw [if_pos (by simp [hb])] at hrun
        have hbf : val.testBit k = false := by
          cases hbb : val.testBit k
          · rfl
          · exact absurd hbb hb
        have hiff2 := step_iff_zero (v := val) hbf rfl hiff
        have hmin2 := step_min_zero (P := P) (v := val) hbf rfl hmin
        have hQn : ∀ w, w < 2 ^ st.W →
            holdsB (add_bit0 k 0 st) w = (!w.testBit k && holdsB st w) := by
          intro w hw
          exact holdsB_add_bit0 k 0 st w hw
        have hres := ih val (add_bit0 k 0 st) out
          hval
          (by rw [hQn val hval, hbf, hsat]; rfl)
          (by
            intro w hw
            rw [hQn w hw]
            exact hiff2 w hw)
          (by
            intro w hw
            exact hmin2 w hw)
          hrun htrue
        exact hres

/-- Invariant of `find_max_loop`, mirror image of `find_min_loop_spec`. -/
theorem find_max_loop_spec (O : Oracle) (P : Nat → Bool) :
    ∀ (k val : Nat) (st : SolverState) (out : Bool × Nat × SolverState),
      val < 2 ^ st.W →
      holdsB st val = true →
      (∀ w, w < 2 ^ st.W → (holdsB st w = true ↔ (P w = true ∧ w / 2 ^ k = val / 2 ^ k))) →
      (∀ w, w < 2 ^ st.W → P w = true → w / 2 ^ k ≤ val / 2 ^ k) →
      find_max_loop O k val st = some out →
      out.1 = true →
      out.2.1 < 2 ^ st.W ∧ P out.2.1 = true ∧
        (∀ w, w < 2 ^ st.W → P w = true → w ≤ out.2.1) := by
  intro k
  induction k with
  | zero =>
      intro val st out hval hsat hiff hmax hrun htrue
      simp only [find_max_loop, Option.some.injEq] at hrun
      rw [← hrun]
      refine ⟨hval, ((hiff val hval).mp hsat).1, ?_⟩
      intro w hw hPw
      have h1 := hmax w hw hPw
      simpa using h1
  | succ k ih =>
      intro val st out hval hsat hiff hmax hrun htrue
      simp only [find_max_loop] at hrun
      by_cases hb : val.testBit k
      · -- the bit of the best value is already 1: force it and continue
        rw [if_pos hb] at hrun
        have hiff2 := step_iff_one (v := val) hb rfl hiff
        have hmax2 := step_max_one (P := P) (v := val) hb rfl hmax
        have hQn : ∀ w, w < 2 ^ st.W →
            holdsB (add_bit1 k 0 st) w = (w.testBit k && holdsB st w) := by
          intro w hw
          exact holdsB_add_bit1 k 0 st w hw
        have hres := ih val (add_bit1 k 0 st) out
          hval
          (by rw [hQn val hval, hb, hsat]; rfl)
          (by
            intro w hw
            rw [hQn w hw]
            exact hiff2 w hw)
          (by
            intro w hw
            exact hmax2 w hw)
          hrun htrue
        exact hres
      · rw [if_neg hb] at hrun
        have hbf : val.testBit k = false := by
          cases hbb : val.testBit k
          · rfl
          · exact absurd hbb hb
        split at hrun
        · -- inner check satisfiable: adopt the model of the nested scope
          rename_i heqc
          split at hrun
          · rename_i v st3 heq
            have hc2 : cacheBack (check O (add_bit1 k 0 (push st))).2 < 0 := by
              show (-1 : Int) < 0
              norm_num
            obtain ⟨hv3, hsat3⟩ := model_fresh hc2 heq
            have hv : v < 2 ^ st.W := hv3
            have hsat1 : holdsB (add_bit1 k 0 (push st)) v = true := hsat3
            rw [holdsB_add_bit1 k 0 (push st) v hv, holdsB_push] at hsat1
            rw [Bool.and_eq_true] at hsat1
            obtain ⟨hvb, hvsat⟩ := hsat1
            obtain ⟨hPv, hveq⟩ := (hiff v hv).mp hvsat
            obtain ⟨hW3, hs3, hl3⟩ := model_frame heq
            have hsl : (pop 1 st3).slevels = st.slevels := by
              show st3.slevels.drop 1 = st.slevels
              rw [hs3]
              rfl
            have hWp : (pop 1 st3).W = st.W := by
              show st3.W = st.W
              rw [hW3]
              rfl
            have hcong : holdsB (pop 1 st3) = holdsB st := holdsB_congr hWp hsl
            have hWn : (add_bit1 k 0 (pop 1 st3)).W = st.W := hWp
            have hQn : ∀ w, w < 2 ^ st.W →
                holdsB (add_bit1 k 0 (pop 1 st3)) w = (w.testBit k && holdsB st w) := by
              intro w hw
              rw [holdsB_add_bit1 k 0 (pop 1 st3) w (by rw [hWp]; exact hw), hcong]
            have hiff2 := step_iff_one hvb hveq hiff
            have hmax2 := step_max_one (P := P) hvb hveq hmax
            have hres := ih v (add_bit1 k 0 (pop 1 st3)) out
              (by rw [hWn]; exact hv)
              (by rw [hQn v hv, hvb, hvsat]; rfl)
              (by
                simp only [hWn]
                intro w hw
                rw [hQn w hw]
                exact hiff2 w hw)
              (by
                simp only [hWn]
                intro w hw
                exact hmax2 w hw)
              hrun htrue
            simp only [hWn] at hres
            exact hres
          · exact absurd hrun (by simp)
        · -- inner check unsatisfiable: the bit stays 0
          rename_i heqc
          have hunsat0 := check_false heqc
          have hunsat : ∀ w, w < 2 ^ st.W → (w.testBit k && holdsB st w) = false := by
            intro w hw
            have hc := hunsat0 w hw
            rwa [holdsB_add_bit1 k 0 (push st) w hw, holdsB_push] at hc
          have hiff2 := step_iff_zero (v := val) hbf rfl hiff
          have hmax2 := step_max_zero (P := P) hbf hiff hunsat hmax
          have hQn : ∀ w, w < 2 ^ st.W →
              holdsB (add_bit0 k 0 (pop 1 (check O (add_bit1 k 0 (push st))).2)) w
                = (!w.testBit k && holdsB st w) := by
            intro w hw
            exact holdsB_add_bit0 k 0 _ w hw
          have hres := ih val (add_bit0 k 0 (pop 1 (check O (add_bit1 k 0 (push st))).2)) out
            hval
            (by rw [hQn val hval, hbf, hsat]; rfl)
            (by
              intro w hw
              rw [hQn w hw]
              exact hiff2 w hw)
            (by
              intro w hw
              exact hmax2 w hw)
            hrun htrue
          exact hres
        · -- inner check unknown: the loop fails, contradicting success
          rename_i heqc
          have hout : (false, val, pop 1 (check O (add_bit1 k 0 (push st))).2) = out :=
            Option.some.inj hrun
          rw [← hout] at htrue
          exact absurd htrue (by simp)

/-! ## Claim theorems -/

/-- Claim C1 fails as stated: at width 1 the coefficient list `[0, 4]` under
`x := 1` encodes `shl(x, numeral₁(2)) = shl(x, 0)`, which evaluates to 1,
while `(0 + 4·1) mod 2¹ = 0`. -/
theorem mk_poly_claim_counterexample :
    evalBV 1 (mk_poly [0, 4]) 1 = 1 ∧ (0 + 4 * 1) % 2 ^ 1 = 0 := by decide

/-- Claim C1 (amended): for every width `W`, coefficient list and value
`v < 2^W`, the expression built by `mk_poly` evaluates under `x := v` to
`(c0 + c1·v + … + cn·vⁿ) mod 2^W`, provided every non-constant coefficient
that is a power of two `2^k` has `k < 2^W` (for larger exponents the shift
amount `k` wraps modulo `2^W` as a `W`-bit numeral); the empty coefficient
list encodes the literal 0. -/
theorem mk_poly_correct (W : Nat) (p : List Nat) (v : Nat) (hv : v < 2 ^ W)
    (hp : ∀ c ∈ p.tail, (is_power_of_two c).getD 0 < 2 ^ W) :
    evalBV W (mk_poly p) v = polyVal p v % 2 ^ W ∧ mk_poly [] = BVExpr.num 0 := by
  refine ⟨?_, rfl⟩
  cases p with
  | nil => rfl
  | cons c r =>
      simp only [mk_poly]
      rw [evalBV_mk_poly_aux W v hv r (BVExpr.num c) BVExpr.var hp]
      have h1 : (c % 2 ^ W) + (v % 2 ^ W) * polyVal r v ≡ c + v * polyVal r v [MOD 2 ^ W] :=
        Nat.ModEq.add (Nat.mod_modEq _ _) ((Nat.mod_modEq _ _).mul_right _)
      calc (evalBV W (BVExpr.num c) v + evalBV W BVExpr.var v * polyVal r v) % 2 ^ W
          = ((c % 2 ^ W) + (v % 2 ^ W) * polyVal r v) % 2 ^ W := rfl
        _ = (c + v * polyVal r v) % 2 ^ W := h1
        _ = polyVal (c :: r) v % 2 ^ W := rfl

/-- Witness for `mk_poly_correct`: width 2, coefficients `[1, 2, 3]`, `x := 3`. -/
theorem mk_poly_correct_witness :
    3 < 2 ^ 2 ∧ evalBV 2 (mk_poly [1, 2, 3]) 3 = polyVal [1, 2, 3] 3 % 2 ^ 2 :=
  ⟨by decide, (mk_poly_correct 2 [1, 2, 3] 3 (by decide) (by decide)).1⟩

/-- Claim C8 fails as stated: the coefficient `4 = 2²` at width 1 is encoded
by `mk_poly_term` as `shl(xpow, numeral₁(2)) = shl(xpow, 0)`, which evaluates
to 1 at `xpow := x := 1`, while the multiply-based encoding evaluates to
`(4 mod 2)·1 = 0`. -/
theorem mk_poly_term_claim_counterexample :
    mk_poly_term 4 BVExpr.var = BVExpr.shl BVExpr.var (BVExpr.num 2) ∧
    evalBV 1 (BVExpr.shl BVExpr.var (BVExpr.num 2)) 1 = 1 ∧
    evalBV 1 (BVExpr.mul (BVExpr.num 4) BVExpr.var) 1 = 0 := by decide

/-- Claim C8 (amended): for every coefficient `2^k` with `k < 2^W` (so that
the shift-amount numeral does not wrap) and every value of the power
expression, the shift-based encoding chosen by `mk_poly_term` and the
multiply-based encoding evaluate identically modulo `2^W`. -/
theorem mk_poly_term_shl_mul_equiv (W k : Nat) (xpow : BVExpr) (v : Nat)
    (hk : k < 2 ^ W) :
    mk_poly_term (2 ^ k) xpow = BVExpr.shl xpow (BVExpr.num k) ∧
    evalBV W (BVExpr.shl xpow (BVExpr.num k)) v
      = evalBV W (BVExpr.mul (BVExpr.num (2 ^ k)) xpow) v := by
  constructor
  · unfold mk_poly_term
    rw [is_power_of_two_some_iff.mpr rfl]
  · simp only [evalBV]
    rw [Nat.mod_eq_of_lt hk, Nat.mod_mul_mod, Nat.mul_comm]

/-- Witness for `mk_poly_term_shl_mul_equiv`: `W = 2`, `k = 1`, `x := 3`. -/
theorem mk_poly_term_shl_mul_equiv_witness :
    1 < 2 ^ 2 ∧ evalBV 2 (BVExpr.shl BVExpr.var (BVExpr.num 1)) 3
      = evalBV 2 (BVExpr.mul (BVExpr.num (2 ^ 1)) BVExpr.var) 3 :=
  ⟨by decide, (mk_poly_term_shl_mul_equiv 2 1 BVExpr.var 3 (by decide)).2⟩

/-- Claim C3: the claim is right and the code is wrong.  `pop(n)` decrements
the scope level by `n` and forwards `pop(n)`, but discards exactly ONE model
cache frame regardless of `n`.  Concrete run (width 2): cache 0 at level 0,
push, assert `x ≥ 1`, cache 1 at level 1, push to level 2 (cache frames
`[1, 1, 0]`, top first), then `pop 2`: the level returns to 0 but two cache
frames remain and the stale level-1 frame `1` — not the level-0 frame `0` —
is on top. -/
theorem pop_discards_one_cache_frame :
    popRunA.scopeLevel = 1 ∧ popRunA.modelCache = [1, 0] ∧
    (push popRunA).scopeLevel = 2 ∧ (push popRunA).modelCache = [1, 1, 0] ∧
    popRun.scopeLevel = 0 ∧ popRun.modelCache = [1, 0] ∧ popRun.slevels = [[]] := by
  decide

/-- Claim C4: the claim (spec invariant 3) is right and the code violates it,
through the same `pop_cache` slip as C3.  Concrete run (width 2): `check`;
`model()` caches 3; `push`; assert `x ≤ 1` (invalidating the level-1 frame);
`pop 0` (legal: `SASSERT(scope_level() >= 0)` holds) discards the invalidated
frame and exposes the stale value 3, which is valid (non-negative) but does
not satisfy the assertion `x ≤ 1` still in force. -/
theorem cached_model_invariant_violation :
    cacheRun.scopeLevel = 1 ∧ (0 : Int) ≤ cacheBack cacheRun ∧
    in_force cacheRun = [(BForm.ule BVExpr.var (BVExpr.num 1), 7)] ∧
    holdsB cacheRun (cacheBack cacheRun).toNat = false := by decide

/-- Claim C5: the claim is right and the code is wrong.  When an inner check
of `find_min` reports unknown, the code pops the nested scope and returns
`false` without popping the scope pushed at entry: concrete run at width 1
with cached model 1 and a decision procedure that answers unknown once an
assertion is in force — entry scope level 0, scope level 1 at return. -/
theorem find_min_scope_leak :
    scopeEntry.scopeLevel = 0 ∧
    scopeRun = some (false, 1, scopeOut) ∧
    scopeOut.scopeLevel = 1 := by decide

/-- Claim C2: whenever `find_min` (resp. `find_max`) returns success, the
returned value is the minimal (resp. maximal) value of the unknown in
`[0, 2^W)` satisfying every assertion in force at entry.  The hypothesis is
the spec's invariant 3 on the entry state: the cached value, when valid, is
a satisfying value below `2^W` (the routine reads it as starting
candidate). -/
theorem extremal_correct (O : Oracle) (st : SolverState) (v : Nat) (st' : SolverState)
    (hcache : 0 ≤ cacheBack st →
      ((cacheBack st).toNat < 2 ^ st.W ∧ holdsB st (cacheBack st).toNat = true)) :
    (find_min O st = some (true, v, st') →
      v < 2 ^ st.W ∧ holdsB st v = true ∧
        ∀ w, w < 2 ^ st.W → holdsB st w = true → v ≤ w) ∧
    (find_max O st = some (true, v, st') →
      v < 2 ^ st.W ∧ holdsB st v = true ∧
        ∀ w, w < 2 ^ st.W → holdsB st w = true → w ≤ v) := by
  constructor
  · intro h
    simp only [find_min] at h
    split at h
    · exact absurd h (by simp)
    · rename_i val st1 heq
      have hvalprops : val < 2 ^ st.W ∧ holdsB st val = true := by
        rcases Int.lt_or_le (cacheBack st) 0 with hc | hc
        · exact model_fresh hc heq
        · obtain ⟨hv1, hst1⟩ := model_cached (by omega) heq
          obtain ⟨hb1, hb2⟩ := hcache hc
          rw [hv1]
          exact ⟨hb1, hb2⟩
      obtain ⟨hvl, hvs⟩ := hvalprops
      obtain ⟨hW1, hs1, hl1⟩ := model_frame heq
      split at h
      · rename_i v2 st2 heq2
        simp only [Option.some.injEq, Prod.mk.injEq, true_and] at h
        obtain ⟨hv2, hst⟩ := h
        have hWps : (push st1).W = st.W := hW1
        have hQp : ∀ w, holdsB (push st1) w = holdsB st w := by
          intro w
          rw [holdsB_push]
          exact congrFun (holdsB_congr hW1 hs1) w
        have hdiv0 : ∀ w, w < 2 ^ st.W → w / 2 ^ st1.W = 0 := by
          intro w hw
          apply Nat.div_eq_of_lt
          rw [hW1]
          exact hw
        have hspec := find_min_loop_spec O (holdsB st) st1.W val (push st1)
          (true, v2, st2)
          (by rw [hWps]; exact hvl)
          (by rw [hQp val]; exact hvs)
          (by
            simp only [hWps]
            intro w hw
            rw [hQp w, hdiv0 w hw, hdiv0 val hvl]
            simp)
          (by
            simp only [hWps]
            intro w hw _
            rw [hdiv0 w hw, hdiv0 val hvl])
          heq2 rfl
        simp only [hWps] at hspec
        rw [← hv2]
        exact hspec
      · rename_i hne
        exact absurd h (hne v st')
  · intro h
    simp only [find_max] at h
    split at h
    · exact absurd h (by simp)
    · rename_i val st1 heq
      have hvalprops : val < 2 ^ st.W ∧ holdsB st val = true := by
        rcases Int.lt_or_le (cacheBack st) 0 with hc | hc
        · exact model_fresh hc heq
        · obtain ⟨hv1, hst1⟩ := model_cached (by omega) heq
          obtain ⟨hb1, hb2⟩ := hcache hc
          rw [hv1]
          exact ⟨hb1, hb2⟩
      obtain ⟨hvl, hvs⟩ := hvalprops
      obtain ⟨hW1, hs1, hl1⟩ := model_frame heq
      split at h
      · rename_i v2 st2 heq2
        simp only [Option.some.injEq, Prod.mk.injEq, true_and] at h
        obtain ⟨hv2, hst⟩ := h
        have hWps : (push st1).W = st.W := hW1
        have hQp : ∀ w, holdsB (push st1) w = holdsB st w := by
          intro w
          rw [holdsB_push]
          exact congrFun (holdsB_congr hW1 hs1) w
        have hdiv0 : ∀ w, w < 2 ^ st.W → w / 2 ^ st1.W = 0 := by
          intro w hw
          apply Nat.div_eq_of_lt
          rw [hW1]
          exact hw
        have hspec := find_max_loop_spec O (holdsB st) st1.W val (push st1)
          (true, v2, st2)
          (by rw [hWps]; exact hvl)
          (by rw [hQp val]; exact hvs)
          (by
            simp only [hWps]
            intro w hw
            rw [hQp w, hdiv0 w hw, hdiv0 val hvl]
            simp)
          (by
            simp only [hWps]
            intro w hw _
            rw [hdiv0 w hw, hdiv0 val hvl])
          heq2 rfl
        simp only [hWps] at hspec
        rw [← hv2]
        exact hspec
      · rename_i hne
        exact absurd h (hne v st')

/-- Witness for `extremal_correct`: the spec's Scenario B — width 4, assert
`x ≤ 10` (dep 1); `find_max` returns 10 and `find_min` returns 0, so 10 is
maximal and 0 satisfies the constraints. -/
theorem extremal_correct_witness :
    (∀ w, w < 2 ^ scenB.W → holdsB scenB w = true → w ≤ 10) ∧
    holdsB scenB 0 = true :=
  ⟨((extremal_correct (oraclePick 0) scenB 10 scenBMaxOut (by decide)).2
      (by decide)).2.2,
   ((extremal_correct (oraclePick 0) scenB 0 scenBMinOut (by decide)).1
      (by decide)).2.1⟩

/-- Claim C6 fails as stated: on a successful `find_min` the assertion set at
return equals the assertion set at entry, so no single-bit assertion forced
during the search remains.  Concrete run: width 2, the single assertion
`x ≥ 2` (dep 1); `find_min` succeeds with value 2 (the search forces bits of
both indices on the way) yet the final assertion stack carries only the entry
assertion. -/
theorem find_min_no_permanent_bits :
    find_min (oraclePick 0) strengthenEntry = some (true, 2, strengthenOut) ∧
    strengthenEntry.slevels = [[(BForm.ule (BVExpr.num 2) BVExpr.var, 1)]] ∧
    strengthenOut.slevels = strengthenEntry.slevels := by decide

/-- Claim C6 (amended): the single-bit assertions forced during the search
live one scope above the entry level (in the scope `find_min`/`find_max`
pushes at entry), and the final `pop(1)` of a successful call retracts them:
a successful call returns with the assertion set and scope level of its
entry state, not with a permanently strengthened constraint set. -/
theorem find_extremal_restores (O : Oracle) (st : SolverState) (v : Nat)
    (st' : SolverState) :
    (find_min O st = some (true, v, st') →
      st'.slevels = st.slevels ∧ st'.scopeLevel = st.scopeLevel) ∧
    (find_max O st = some (true, v, st') →
      st'.slevels = st.slevels ∧ st'.scopeLevel = st.scopeLevel) := by
  constructor
  · intro h
    simp only [find_min] at h
    split at h
    · exact absurd h (by simp)
    · rename_i val st1 heq
      split at h
      · rename_i v2 st2 heq2
        simp only [Option.some.injEq, Prod.mk.injEq, true_and] at h
        obtain ⟨hW1, hs1, hl1⟩ := model_frame heq
        have hf := find_min_loop_frame O st1.W val (push st1) (true, v2, st2) heq2
        rw [← h.2]
        constructor
        · show st2.slevels.drop 1 = st.slevels
          rw [List.drop_one]
          have ht : st2.slevels.tail = (push st1).slevels.tail := hf.2.2
          rw [ht]
          show st1.slevels = st.slevels
          exact hs1
        · show st2.scopeLevel - 1 = st.scopeLevel
          have h2 : st2.scopeLevel = (push st1).scopeLevel := hf.2.1
          have h3 : (push st1).scopeLevel = st1.scopeLevel + 1 := rfl
          have h4 : st1.scopeLevel = st.scopeLevel := hl1
          omega
      · rename_i hne
        exact absurd h (hne v st')
  · intro h
    simp only [find_max] at h
    split at h
    · exact absurd h (by simp)
    · rename_i val st1 heq
      split at h
      · rename_i v2 st2 heq2
        simp only [Option.some.injEq, Prod.mk.injEq, true_and] at h
        obtain ⟨hW1, hs1, hl1⟩ := model_frame heq
        have hf := find_max_loop_frame O st1.W val (push st1) (true, v2, st2) heq2
        rw [← h.2]
        constructor
        · show st2.slevels.drop 1 = st.slevels
          rw [List.drop_one]
          have ht : st2.slevels.tail = (push st1).slevels.tail := hf.2.2
          rw [ht]
          show st1.slevels = st.slevels
          exact hs1
        · show st2.scopeLevel - 1 = st.scopeLevel
          have h2 : st2.scopeLevel = (push st1).scopeLevel := hf.2.1
          have h3 : (push st1).scopeLevel = st1.scopeLevel + 1 := rfl
          have h4 : st1.scopeLevel = st.scopeLevel := hl1
          omega
      · rename_i hne
        exact absurd h (hne v st')

/-- Witness for `find_extremal_restores`, on the run of
`find_min_no_permanent_bits`. -/
theorem find_extremal_restores_witness :
    strengthenOut.slevels = strengthenEntry.slevels ∧
    strengthenOut.scopeLevel = strengthenEntry.scopeLevel :=
  (find_extremal_restores (oraclePick 0) strengthenEntry 2 strengthenOut).1 (by decide)

/-- Claim C7: when the decision procedure reports a conflict that is a
non-empty subset of the assertions in force and is jointly unsatisfiable over
`0 … 2^W - 1`, `unsat_core` returns the non-empty list of dependency ids of
that subset; every returned id labels an assertion still in force, and the
assertions labelled by returned ids are jointly unsatisfiable.  When the
reported conflict is empty, `unsat_core` hits the fatal
`SASSERT(deps.size() > 0)` (`none`) instead of silently returning. -/
theorem unsat_core_spec (O : Oracle) (st : SolverState)
    (hsub : ∀ p ∈ O.core (in_force st), p ∈ in_force st) :
    (O.core (in_force st) = [] → unsat_core O st = none) ∧
    ((O.core (in_force st) ≠ [] ∧
        ∀ w, w < 2 ^ st.W → ∃ p ∈ O.core (in_force st), evalB st.W p.1 w = false) →
      ∃ deps, unsat_core O st = some deps ∧ deps ≠ [] ∧
        (∀ d ∈ deps, ∃ f, (f, d) ∈ in_force st) ∧
        (∀ w, w < 2 ^ st.W →
          ∃ q ∈ in_force st, q.2 ∈ deps ∧ evalB st.W q.1 w = false)) := by
  constructor
  · intro h
    simp [unsat_core, h]
  · rintro ⟨hne, hunsat⟩
    refine ⟨(O.core (in_force st)).map (fun p => p.2), ?_, ?_, ?_, ?_⟩
    · simp only [unsat_core]
      rw [if_neg (by simpa [List.isEmpty_iff] using hne)]
    · simpa using hne
    · intro d hd
      rcases List.mem_map.mp hd with ⟨p, hp, hpd⟩
      subst hpd
      exact ⟨p.1, hsub p hp⟩
    · intro w hw
      rcases hunsat w hw with ⟨p, hp, hpe⟩
      exact ⟨p, hsub p hp, List.mem_map.mpr ⟨p, hp, rfl⟩, hpe⟩

/-- Witness for `unsat_core_spec`: width 1 with the contradictory assertions
`bit0(x)` (dep 1) and `¬bit0(x)` (dep 2), the conflict being both of them. -/
theorem unsat_core_spec_witness :
    ∃ deps, unsat_core oracleCoreAll coreEntry = some deps ∧ deps ≠ [] ∧
      (∀ d ∈ deps, ∃ f, (f, d) ∈ in_force coreEntry) ∧
      (∀ w, w < 2 ^ coreEntry.W →
        ∃ q ∈ in_force coreEntry, q.2 ∈ deps ∧ evalB coreEntry.W q.1 w = false) :=
  (unsat_core_spec oracleCoreAll coreEntry (by decide)).2 (by decide)

/-- Claim C9: `add_umul_ovfl`, `add_smul_ovfl` and `add_smul_udfl` assert the
base no-overflow/no-underflow predicate of `lhs·rhs` with the caller's sign
inverted: the predicate is negated exactly when the caller's `sign` is false
and asserted positively exactly when `sign` is true. -/
theorem mul_ovfl_sign_inverted (lhs rhs : List Nat) (sign : Bool) (dep : Nat)
    (st : SolverState) :
    headAsserts (add_umul_ovfl lhs rhs sign dep st)
      = ((if sign then BForm.umulNoOvfl (mk_poly lhs) (mk_poly rhs)
          else BForm.not (BForm.umulNoOvfl (mk_poly lhs) (mk_poly rhs))), dep)
        :: headAsserts st ∧
    headAsserts (add_smul_ovfl lhs rhs sign dep st)
      = ((if sign then BForm.smulNoOvfl (mk_poly lhs) (mk_poly rhs)
          else BForm.not (BForm.smulNoOvfl (mk_poly lhs) (mk_poly rhs))), dep)
        :: headAsserts st ∧
    headAsserts (add_smul_udfl lhs rhs sign dep st)
      = ((if sign then BForm.smulNoUdfl (mk_poly lhs) (mk_poly rhs)
          else BForm.not (BForm.smulNoUdfl (mk_poly lhs) (mk_poly rhs))), dep)
        :: headAsserts st := by
  cases sign <;> exact ⟨rfl, rfl, rfl⟩

/-- Claim C10: `push_cache` duplicates the whole cached value (not merely a
validity flag), and a `model()` call right after `push()` with a valid cache
returns that identical value with no state change — in particular without a
decision-procedure call. -/
theorem push_copies_cached_model (O : Oracle) (st : SolverState) :
    cacheBack (push st) = cacheBack st ∧
    (0 ≤ cacheBack st →
      model O (push st) = some ((cacheBack st).toNat, push st)) := by
  refine ⟨rfl, fun h => ?_⟩
  have hc : ¬ cacheBack (push st) < 0 := by
    have : cacheBack (push st) = cacheBack st := rfl
    omega
  simp [model, hc]
  rfl

/-- Witness for `push_copies_cached_model`: width 2 with cached value 2. -/
theorem push_copies_cached_model_witness :
    (0 : Int) ≤ cacheBack cachedEntry ∧
    model (oraclePick 2) (push cachedEntry)
      = some ((cacheBack cachedEntry).toNat, push cachedEntry) :=
  ⟨by decide, (push_copies_cached_model (oraclePick 2) cachedEntry).2 (by decide)⟩

end PolysatUnivariate
